import Mathlib

/-!
Verification of the wicked64 JIT core against its specification.

The development shallowly embeds the relevant parts of the source:

* `src/wicked64-core/src/jit/register.rs` — the register allocator
  (`Registers`, `insert`, `get`, `free`, `exclude_register`);
* `src/wicked64-core/src/jit/compiler.rs` — the JAL / SW lowerings and the
  `compile_block` loop;
* `src/wicked64-core/src/jit/cache.rs` — the cache invalidation retain;
* `src/wicked64-core/src/jit/jump_table.rs` — the jump table;
* `src/wicked64-core/src/jit/mod.rs` — `JitEngine::invalidate_cache`;
* `src/wicked64-core/src/jit/bridge.rs` — `mmu_store_dword`;
* `src/wicked64-codegen/macro/src/emitter.rs` and
  `src/wicked64-core/src/jit/codegen/emitter.rs` — the mov encoders.

Machine integers are modelled as `Nat` with explicit wrap-around
(`% 2^64`, `% 2^32`) where the Rust code uses fixed-width arithmetic.
Hash-map / hash-set iteration order, which is unspecified in the source,
is resolved deterministically (insertion order); every property proved or
refuted below is insensitive to that resolution.
-/

namespace W64

/-! ## Generic association-list helpers -/

/-- First entry of an association list whose key equals `k`. -/
def assocFind {α β : Type} [DecidableEq α] (l : List (α × β)) (k : α) :
    Option (α × β) :=
  l.find? (fun e => decide (e.1 = k))

theorem assocFind_of_mem {α β : Type} [DecidableEq α]
    (l : List (α × β)) (hnd : (l.map Prod.fst).Nodup) {k : α} {v : β}
    (hm : (k, v) ∈ l) : assocFind l k = some (k, v) := by
  induction l with
  | nil => cases hm
  | cons a tl ih =>
    simp only [List.map_cons, List.nodup_cons] at hnd
    rcases List.mem_cons.mp hm with h | h
    · subst h
      simp [assocFind, List.find?]
    · have hk : a.1 ≠ k := by
        intro hak
        exact hnd.1 (hak ▸ (List.mem_map.mpr ⟨(k, v), h, rfl⟩))
      simpa [assocFind, List.find?, hk] using ih hnd.2 h

theorem assocFind_eq_none {α β : Type} [DecidableEq α]
    (l : List (α × β)) (k : α) :
    assocFind l k = none ↔ ∀ e ∈ l, e.1 ≠ k := by
  simp [assocFind, List.find?_eq_none]

theorem assocFind_mem {α β : Type} [DecidableEq α]
    {l : List (α × β)} {k : α} {e : α × β}
    (h : assocFind l k = some e) : e ∈ l ∧ e.1 = k := by
  refine ⟨List.mem_of_find?_eq_some h, ?_⟩
  have := List.find?_some h
  simpa using this

/-! ## Register allocator (`src/wicked64-core/src/jit/register.rs`)

Host registers are numbered as in x86-64: rax=0, rcx=1, rdx=2, rbx=3,
rsp=4, rbp=5, rsi=6, rdi=7, r8=8 … r15=15. -/

/-- Guest register slots (`GuestRegister` in register.rs). -/
inductive GuestRegister where
  | cpu (index : Nat) : GuestRegister
  | pc : GuestRegister
deriving DecidableEq, Repr

/-- Host register number (0 = rax … 15 = r15). -/
abbrev HostReg := Nat

/-- `REGISTER_SET` from register.rs, in declaration order. -/
def REGISTER_SET : List HostReg :=
  [0, 1, 2, 3, 4, 5, 6, 7, 8, 9, 10, 11, 12, 13, 14, 15]

/-- `is_reserved` from register.rs: rsi, rsp, rbp and rbx are never mapped. -/
def isReserved (r : HostReg) : Bool :=
  decide (r = 6) || decide (r = 4) || decide (r = 5) || decide (r = 3)

/-- Value type of the guest→host map (`HostRegister` in register.rs). -/
structure HostBinding where
  register : HostReg
  borrow_index : Nat
deriving DecidableEq, Repr

/-- Allocator state (`Registers` in register.rs). The hash map and hash
set are modelled as lists in insertion order. -/
structure Registers where
  regs : List (GuestRegister × HostBinding)
  free_regs : List HostReg
  borrow_index : Nat
deriving DecidableEq, Repr

/-- `Registers::new` / `with_registers(&REGISTER_SET)`. -/
def Registers.new : Registers :=
  { regs := []
    free_regs := REGISTER_SET.filter (fun r => !isReserved r)
    borrow_index := 0 }

/-- Lookup of a guest slot in the map (`self.regs.get(&guest)`). -/
def Registers.find (s : Registers) (g : GuestRegister) : Option HostBinding :=
  (assocFind s.regs g).map (·.2)

/-- Hash-set insertion (idempotent, like `HashSet::insert`). -/
def setInsert (l : List HostReg) (r : HostReg) : List HostReg :=
  if r ∈ l then l else l ++ [r]

/-- Hash-set removal (`HashSet::remove`). -/
def setRemove (l : List HostReg) (r : HostReg) : List HostReg :=
  l.filter (fun x => decide (x ≠ r))

/-- Entry with the smallest borrow index (first minimal one), mirroring
`select_nth_unstable_by_key(0, |(_, host)| host.borrow_index)`. -/
def selectMin : List (GuestRegister × HostBinding) →
    Option (GuestRegister × HostBinding)
  | [] => none
  | e :: es =>
    match selectMin es with
    | none => some e
    | some m => if m.2.borrow_index < e.2.borrow_index then some m else some e

/-- Outcome of `Registers::insert`. `diverged` models the panic of
`select_nth_unstable_by_key` when both the free set and the map are
empty. -/
inductive InsertResult where
  | alreadyReserved : InsertResult
  | diverged : InsertResult
  | ok (reg : HostReg) (dropped : Option GuestRegister) (s : Registers) :
      InsertResult
deriving DecidableEq, Repr

/-- `Registers::insert` from register.rs. In the eviction branch the code
inserts the victim's register into the free set and immediately removes
it again, and — notably — never removes the evicted guest slot from the
map; both behaviours are mirrored here. -/
def Registers.insert (s : Registers) (g : GuestRegister) : InsertResult :=
  if (s.find g).isSome then .alreadyReserved
  else
    match s.free_regs with
    | r :: _ =>
      .ok r none
        { regs := s.regs ++ [(g, ⟨r, s.borrow_index⟩)]
          free_regs := setRemove s.free_regs r
          borrow_index := s.borrow_index + 1 }
    | [] =>
      match selectMin s.regs with
      | none => .diverged
      | some (g0, hb) =>
        .ok hb.register (some g0)
          { regs := s.regs ++ [(g, ⟨hb.register, s.borrow_index⟩)]
            free_regs := setRemove (setInsert [] hb.register) hb.register
            borrow_index := s.borrow_index + 1 }

/-- `Registers::get` from register.rs: bump the borrow index of a bound
slot and return its host register. -/
def Registers.get (s : Registers) (g : GuestRegister) :
    Option (HostReg × Registers) :=
  match s.find g with
  | none => none
  | some hb =>
    some (hb.register,
      { s with
        regs := s.regs.map
          (fun e => if e.1 = g then (g, ⟨hb.register, s.borrow_index⟩) else e)
        borrow_index := s.borrow_index + 1 })

/-- `Registers::free` from register.rs. -/
def Registers.free (s : Registers) (g : GuestRegister) :
    Option (GuestRegister × HostReg) × Registers :=
  match s.find g with
  | none =>
    (none, if s.regs.isEmpty then { s with borrow_index := 0 } else s)
  | some hb =>
    let regs2 := s.regs.filter (fun e => decide (e.1 ≠ g))
    (some (g, hb.register),
      { regs := regs2
        free_regs := setInsert s.free_regs hb.register
        borrow_index := if regs2.isEmpty then 0 else s.borrow_index })

/-- `Registers::find_by_host` from register.rs. -/
def Registers.findByHost (s : Registers) (r : HostReg) :
    Option (GuestRegister × HostReg) :=
  (s.regs.find? (fun e => decide (e.2.register = r))).map
    (fun e => (e.1, e.2.register))

/-- `Registers::exclude_register` from register.rs. If the register is
not free but bound, the binding is freed (early return); otherwise the
register is removed from the free set. -/
def Registers.exclude_register (s : Registers) (r : HostReg) :
    Option (GuestRegister × HostReg) × Registers :=
  if r ∈ s.free_regs then
    (none, { s with free_regs := setRemove s.free_regs r })
  else
    match s.findByHost r with
    | some (g, _) => s.free g
    | none => (none, { s with free_regs := setRemove s.free_regs r })

end W64

namespace W64

/-! ## Allocator invariants (claims C1 and C8) -/

/-- No free host register is bound in the guest-slot map. -/
def FreeDisjoint (s : Registers) : Prop :=
  ∀ r ∈ s.free_regs, ∀ e ∈ s.regs, e.2.register ≠ r

/-- No host register is the binding of two distinct guest slots. -/
def HostInjective (s : Registers) : Prop :=
  ∀ e1 ∈ s.regs, ∀ e2 ∈ s.regs,
    e1.2.register = e2.2.register → e1.1 = e2.1

/-- The guest-slot map has no duplicate keys (a `HashMap` invariant). -/
def KeysNodup (s : Registers) : Prop := (s.regs.map Prod.fst).Nodup

/-- The allocator invariant claimed by the spec, plus the map-key
well-formedness it presupposes. -/
def RInv (s : Registers) : Prop :=
  FreeDisjoint s ∧ HostInjective s ∧ KeysNodup s

theorem rinv_new : RInv Registers.new := by
  refine ⟨?_, ?_, ?_⟩
  · intro r _ e he; simp [Registers.new] at he
  · intro e1 he1 e2 he2 _; simp [Registers.new] at he1
  · unfold KeysNodup; decide

theorem find_eq_none_iff (s : Registers) (g : GuestRegister) :
    s.find g = none ↔ ∀ e ∈ s.regs, e.1 ≠ g := by
  unfold Registers.find
  cases hf : assocFind s.regs g with
  | none => simpa [hf] using (assocFind_eq_none s.regs g).mp hf
  | some e =>
    obtain ⟨hmem, hkey⟩ := assocFind_mem hf
    constructor
    · intro h; simp at h
    · intro h; exact absurd hkey (h e hmem)

theorem find_eq_some_entry {s : Registers} {g : GuestRegister} {hb : HostBinding}
    (h : s.find g = some hb) : (g, hb) ∈ s.regs := by
  unfold Registers.find at h
  cases hf : assocFind s.regs g with
  | none => rw [hf] at h; cases h
  | some e =>
    rw [hf] at h
    obtain ⟨hmem, hkey⟩ := assocFind_mem hf
    have hbe : e.2 = hb := by simpa using h
    have : e = (g, hb) := by
      cases e; simp_all
    exact this ▸ hmem

/-- Inversion of `Registers.insert` for the non-eviction outcome. -/
theorem insert_ok_none_cases {s : Registers} {g : GuestRegister} {r : HostReg}
    {s2 : Registers} (h : s.insert g = .ok r none s2) :
    s.find g = none ∧ r ∈ s.free_regs ∧
      s2 = { regs := s.regs ++ [(g, ⟨r, s.borrow_index⟩)]
             free_regs := setRemove s.free_regs r
             borrow_index := s.borrow_index + 1 } := by
  by_cases hg : (s.find g).isSome
  · rw [Registers.insert, if_pos hg] at h; cases h
  · rw [Registers.insert, if_neg hg] at h
    have hfind : s.find g = none := Option.not_isSome_iff_eq_none.mp hg
    cases hfree : s.free_regs with
    | nil =>
      rw [hfree] at h
      cases hsel : selectMin s.regs with
      | none => rw [hsel] at h; cases h
      | some m =>
        obtain ⟨g0, hb⟩ := m
        rw [hsel] at h
        cases h
    | cons r0 rest =>
      rw [hfree] at h
      injection h with h1 h2 h3
      subst h1
      subst h3
      exact ⟨hfind, List.mem_cons_self _ _, rfl⟩

/-- Inversion of `Registers.insert` for the eviction outcome. -/
theorem insert_ok_evict_cases {s : Registers} {g : GuestRegister} {r : HostReg}
    {g0 : GuestRegister} {s2 : Registers}
    (h : s.insert g = .ok r (some g0) s2) :
    s.find g = none ∧ s.free_regs = [] ∧
      ∃ hb, selectMin s.regs = some (g0, hb) ∧ r = hb.register ∧
        s2 = { regs := s.regs ++ [(g, ⟨hb.register, s.borrow_index⟩)]
               free_regs := setRemove (setInsert [] hb.register) hb.register
               borrow_index := s.borrow_index + 1 } := by
  by_cases hg : (s.find g).isSome
  · rw [Registers.insert, if_pos hg] at h; cases h
  · rw [Registers.insert, if_neg hg] at h
    have hfind : s.find g = none := Option.not_isSome_iff_eq_none.mp hg
    cases hfree : s.free_regs with
    | nil =>
      rw [hfree] at h
      cases hsel : selectMin s.regs with
      | none => rw [hsel] at h; cases h
      | some m =>
        obtain ⟨g1, hb⟩ := m
        rw [hsel] at h
        injection h with h1 h2 h3
        injection h2 with h2
        subst h1
        subst h2
        subst h3
        exact ⟨hfind, rfl, hb, rfl, rfl, rfl⟩
    | cons r0 rest =>
      rw [hfree] at h
      cases h

theorem selectMin_isSome (l : List (GuestRegister × HostBinding))
    (h : l ≠ []) : (selectMin l).isSome := by
  cases l with
  | nil => exact absurd rfl h
  | cons e es =>
    simp only [selectMin]
    cases hsel : selectMin es with
    | none => simp
    | some m =>
      by_cases hlt : m.2.borrow_index < e.2.borrow_index <;> simp [hlt]

theorem eq_nil_of_selectMin_eq_none {l : List (GuestRegister × HostBinding)}
    (h : selectMin l = none) : l = [] := by
  cases l with
  | nil => rfl
  | cons e es =>
    exfalso
    have hs := selectMin_isSome (e :: es) (by simp)
    rw [h] at hs
    simp at hs

theorem selectMin_mem {l : List (GuestRegister × HostBinding)}
    {m : GuestRegister × HostBinding} (h : selectMin l = some m) : m ∈ l := by
  induction l with
  | nil => cases h
  | cons e es ih =>
    simp only [selectMin] at h
    cases hsel : selectMin es with
    | none =>
      rw [hsel] at h
      have h2 : some e = some m := h
      cases h2
      exact List.mem_cons_self _ _
    | some m0 =>
      rw [hsel] at h
      have h2 : (if m0.2.borrow_index < e.2.borrow_index then some m0 else some e)
          = some m := h
      by_cases hlt : m0.2.borrow_index < e.2.borrow_index
      · rw [if_pos hlt] at h2
        cases h2
        exact List.mem_cons_of_mem e (ih hsel)
      · rw [if_neg hlt] at h2
        cases h2
        exact List.mem_cons_self _ _

theorem selectMin_le {l : List (GuestRegister × HostBinding)}
    {m : GuestRegister × HostBinding} (h : selectMin l = some m) :
    ∀ e ∈ l, m.2.borrow_index ≤ e.2.borrow_index := by
  induction l generalizing m with
  | nil => cases h
  | cons a es ih =>
    simp only [selectMin] at h
    cases hsel : selectMin es with
    | none =>
      rw [hsel] at h
      have h2 : some a = some m := h
      have hes : es = [] := eq_nil_of_selectMin_eq_none hsel
      subst hes
      injection h2 with h2
      subst m
      intro e he
      have he2 : e = a := by simpa using he
      rw [he2]
    | some m0 =>
      rw [hsel] at h
      have h2 : (if m0.2.borrow_index < a.2.borrow_index then some m0 else some a)
          = some m := h
      by_cases hlt : m0.2.borrow_index < a.2.borrow_index
      · rw [if_pos hlt] at h2
        injection h2 with h2
        subst m
        intro e he
        rcases List.mem_cons.mp he with rfl | hmem
        · exact le_of_lt hlt
        · exact ih hsel e hmem
      · rw [if_neg hlt] at h2
        injection h2 with h2
        subst m
        intro e he
        rcases List.mem_cons.mp he with rfl | hmem
        · exact le_refl _
        · exact le_trans (le_of_not_lt hlt) (ih hsel e hmem)

end W64

namespace W64

/-- Two entries of a map with duplicate-free keys that share a key are
the same entry. -/
theorem keys_nodup_entry_eq {α β : Type} [DecidableEq α]
    {l : List (α × β)} (hnd : (l.map Prod.fst).Nodup)
    {e1 e2 : α × β} (h1 : e1 ∈ l) (h2 : e2 ∈ l) (hk : e1.1 = e2.1) :
    e1 = e2 := by
  induction l with
  | nil => cases h1
  | cons a tl ih =>
    simp only [List.map_cons, List.nodup_cons] at hnd
    rcases List.mem_cons.mp h1 with he1 | he1 <;>
      rcases List.mem_cons.mp h2 with he2 | he2
    · rw [he1, he2]
    · exfalso
      apply hnd.1
      refine List.mem_map.mpr ⟨e2, he2, ?_⟩
      rw [← hk, he1]
    · exfalso
      apply hnd.1
      refine List.mem_map.mpr ⟨e1, he1, ?_⟩
      rw [hk, he2]
    · exact ih hnd.2 he1 he2

theorem rinv_insert_ok_none {s : Registers} {g : GuestRegister} {r : HostReg}
    {s2 : Registers} (hinv : RInv s) (h : s.insert g = .ok r none s2) :
    RInv s2 := by
  obtain ⟨hfind, hrfree, rfl⟩ := insert_ok_none_cases h
  obtain ⟨hA, hB, hC⟩ := hinv
  have hrnotbound : ∀ e ∈ s.regs, e.2.register ≠ r := fun e he => hA r hrfree e he
  have hgnotkey : ∀ e ∈ s.regs, e.1 ≠ g := (find_eq_none_iff s g).mp hfind
  refine ⟨?_, ?_, ?_⟩
  · intro r2 hr2 e he
    have hr2m := List.mem_filter.mp hr2
    have hr2ne : r2 ≠ r := by simpa using hr2m.2
    rcases List.mem_append.mp he with he | he
    · exact hA r2 hr2m.1 e he
    · have heq : e = (g, ⟨r, s.borrow_index⟩) := by simpa using he
      rw [heq]
      exact fun hc => hr2ne (by simpa using hc.symm)
  · intro e1 he1 e2 he2 hreg
    rcases List.mem_append.mp he1 with h1 | h1 <;>
      rcases List.mem_append.mp he2 with h2 | h2
    · exact hB e1 h1 e2 h2 hreg
    · have q2 : e2 = (g, ⟨r, s.borrow_index⟩) := by simpa using h2
      exact absurd (by rw [q2] at hreg; exact hreg) (hrnotbound e1 h1)
    · have q1 : e1 = (g, ⟨r, s.borrow_index⟩) := by simpa using h1
      exact absurd (by rw [q1] at hreg; exact hreg.symm) (hrnotbound e2 h2)
    · have q1 : e1 = (g, ⟨r, s.borrow_index⟩) := by simpa using h1
      have q2 : e2 = (g, ⟨r, s.borrow_index⟩) := by simpa using h2
      rw [q1, q2]
  · unfold KeysNodup
    simp only [List.map_append, List.map_cons, List.map_nil]
    rw [List.nodup_append]
    refine ⟨hC, by simp, ?_⟩
    intro a ha ha2
    have hag : a = g := by simpa using ha2
    obtain ⟨e, he, rfl⟩ := List.mem_map.mp ha
    exact hgnotkey e he hag

theorem rinv_get {s : Registers} {g : GuestRegister} {r : HostReg}
    {s2 : Registers} (hinv : RInv s) (h : s.get g = some (r, s2)) :
    RInv s2 := by
  obtain ⟨hA, hB, hC⟩ := hinv
  unfold Registers.get at h
  cases hf : s.find g with
  | none => rw [hf] at h; cases h
  | some hb =>
    rw [hf] at h
    injection h with h
    injection h with h1 h2
    subst h1
    subst h2
    have hbmem : (g, hb) ∈ s.regs := find_eq_some_entry hf
    have hcorr : ∀ e2 ∈ s.regs.map
          (fun e => if e.1 = g then (g, (⟨hb.register, s.borrow_index⟩ : HostBinding)) else e),
        ∃ e1 ∈ s.regs, e2.1 = e1.1 ∧ e2.2.register = e1.2.register := by
      intro e2 he2
      obtain ⟨e1, he1, rfl⟩ := List.mem_map.mp he2
      by_cases hk : e1.1 = g
      · have he1eq : e1 = (g, hb) := keys_nodup_entry_eq hC he1 hbmem hk
        refine ⟨e1, he1, ?_, ?_⟩
        · rw [if_pos hk]; exact hk.symm
        · rw [if_pos hk, he1eq]
      · rw [if_neg hk]
        exact ⟨e1, he1, rfl, rfl⟩
    refine ⟨?_, ?_, ?_⟩
    · intro r2 hr2 e2 he2
      obtain ⟨e1, he1, _, hreg⟩ := hcorr e2 he2
      rw [hreg]
      exact hA r2 hr2 e1 he1
    · intro e1 he1 e2 he2 hreg
      obtain ⟨d1, hd1, hk1, hr1⟩ := hcorr e1 he1
      obtain ⟨d2, hd2, hk2, hr2⟩ := hcorr e2 he2
      rw [hk1, hk2]
      exact hB d1 hd1 d2 hd2 (by rw [← hr1, ← hr2]; exact hreg)
    · unfold KeysNodup
      have hmapeq : (s.regs.map
            (fun e => if e.1 = g then (g, (⟨hb.register, s.borrow_index⟩ : HostBinding)) else e)).map
            Prod.fst = s.regs.map Prod.fst := by
        rw [List.map_map]
        refine List.map_congr_left ?_
        intro e _
        by_cases hk : e.1 = g
        · simp [hk]
        · simp [hk]
      rw [hmapeq]
      exact hC

theorem rinv_free {s : Registers} {g : GuestRegister}
    {d : Option (GuestRegister × HostReg)} {s2 : Registers}
    (hinv : RInv s) (h : s.free g = (d, s2)) : RInv s2 := by
  obtain ⟨hA, hB, hC⟩ := hinv
  unfold Registers.free at h
  cases hf : s.find g with
  | none =>
    rw [hf] at h
    injection h with h1 h2
    subst h2
    split
    · exact ⟨hA, hB, hC⟩
    · exact ⟨hA, hB, hC⟩
  | some hb =>
    rw [hf] at h
    injection h with h1 h2
    subst h2
    refine ⟨?_, ?_, ?_⟩
    · intro r2 hr2 e he
      have hef := List.mem_filter.mp he
      have hene : e.1 ≠ g := by simpa using hef.2
      unfold setInsert at hr2
      by_cases hmem : hb.register ∈ s.free_regs
      · rw [if_pos hmem] at hr2
        exact hA r2 hr2 e hef.1
      · rw [if_neg hmem] at hr2
        rcases List.mem_append.mp hr2 with hr2 | hr2
        · exact hA r2 hr2 e hef.1
        · have hr2eq : r2 = hb.register := by simpa using hr2
          subst hr2eq
          intro hc
          have hgmem : (g, hb) ∈ s.regs := find_eq_some_entry hf
          exact hene (hB e hef.1 (g, hb) hgmem hc)
    · intro e1 he1 e2 he2 hreg
      exact hB e1 (List.mem_filter.mp he1).1 e2 (List.mem_filter.mp he2).1 hreg
    · exact List.Nodup.sublist
        (List.Sublist.map Prod.fst (List.filter_sublist s.regs)) hC

theorem rinv_exclude {s : Registers} {r : HostReg}
    {d : Option (GuestRegister × HostReg)} {s2 : Registers}
    (hinv : RInv s) (h : s.exclude_register r = (d, s2)) : RInv s2 := by
  unfold Registers.exclude_register at h
  by_cases hfree : r ∈ s.free_regs
  · rw [if_pos hfree] at h
    injection h with h1 h2
    subst h2
    refine ⟨?_, hinv.2.1, hinv.2.2⟩
    intro r2 hr2 e he
    exact hinv.1 r2 (List.mem_filter.mp hr2).1 e he
  · rw [if_neg hfree] at h
    cases hfbh : s.findByHost r with
    | some p =>
      rw [hfbh] at h
      obtain ⟨g, _⟩ := p
      exact rinv_free hinv h
    | none =>
      rw [hfbh] at h
      injection h with h1 h2
      subst h2
      refine ⟨?_, hinv.2.1, hinv.2.2⟩
      intro r2 hr2 e he
      exact hinv.1 r2 (List.mem_filter.mp hr2).1 e he

/-- States of the allocator reachable from `Registers.new` by operation
sequences in which every `insert` is served from a non-empty free set
(no eviction happens). -/
inductive ReachEvictionFree : Registers → Prop where
  | base : ReachEvictionFree Registers.new
  | insertStep {s : Registers} {g : GuestRegister} {r : HostReg}
      {s2 : Registers} : ReachEvictionFree s →
      s.insert g = .ok r none s2 → ReachEvictionFree s2
  | getStep {s : Registers} {g : GuestRegister} {r : HostReg}
      {s2 : Registers} : ReachEvictionFree s →
      s.get g = some (r, s2) → ReachEvictionFree s2
  | freeStep {s : Registers} {g : GuestRegister}
      {d : Option (GuestRegister × HostReg)} {s2 : Registers} :
      ReachEvictionFree s → s.free g = (d, s2) → ReachEvictionFree s2
  | excludeStep {s : Registers} {r : HostReg}
      {d : Option (GuestRegister × HostReg)} {s2 : Registers} :
      ReachEvictionFree s → s.exclude_register r = (d, s2) →
      ReachEvictionFree s2

theorem rinv_reach {s : Registers} (h : ReachEvictionFree s) : RInv s := by
  induction h with
  | base => exact rinv_new
  | insertStep _ hstep ih => exact rinv_insert_ok_none ih hstep
  | getStep _ hstep ih => exact rinv_get ih hstep
  | freeStep _ hstep ih => exact rinv_free ih hstep
  | excludeStep _ hstep ih => exact rinv_exclude ih hstep

end W64

namespace W64

/-- C1 (amended): for every state reachable from a fresh `Registers` by
insert / get / free / exclude_register in which every insert was served
from a non-empty free set (no eviction), no host register is both free
and bound, no host register is the binding of two distinct guest slots,
and a non-evicting `insert` returns a host register that is not the
binding of any other guest slot, before or after the insert.  (The
unrestricted claim, covering the eviction path, is refuted by
`registers_insert_eviction_counterexample`.) -/
theorem registers_eviction_free_invariant (s : Registers)
    (h : ReachEvictionFree s) :
    (∀ r ∈ s.free_regs, ∀ e ∈ s.regs, e.2.register ≠ r) ∧
    (∀ e1 ∈ s.regs, ∀ e2 ∈ s.regs,
      e1.2.register = e2.2.register → e1.1 = e2.1) ∧
    (∀ g r s2, s.insert g = .ok r none s2 →
      (∀ e ∈ s.regs, e.2.register ≠ r) ∧
      (∀ e ∈ s2.regs, e.2.register = r → e.1 = g)) := by
  obtain ⟨hA, hB, hC⟩ := rinv_reach h
  refine ⟨hA, hB, ?_⟩
  intro g r s2 hins
  obtain ⟨hfind, hrfree, rfl⟩ := insert_ok_none_cases hins
  refine ⟨fun e he => hA r hrfree e he, ?_⟩
  intro e he hereg
  rcases List.mem_append.mp he with he | he
  · exact absurd hereg (hA r hrfree e he)
  · have heq : e = (g, ⟨r, s.borrow_index⟩) := by simpa using he
    rw [heq]

/-- Allocator state obtained from `Registers.new` by one insert of guest
slot `cpu 1`; used to exercise `registers_eviction_free_invariant`. -/
def regsAfterOneInsert : Registers :=
  { regs := [(GuestRegister.cpu 1, ⟨0, 0⟩)]
    free_regs := [1, 2, 7, 8, 9, 10, 11, 12, 13, 14, 15]
    borrow_index := 1 }

theorem registers_eviction_free_invariant_witness :
    (∀ r ∈ regsAfterOneInsert.free_regs, ∀ e ∈ regsAfterOneInsert.regs,
      e.2.register ≠ r) ∧
    (∀ e1 ∈ regsAfterOneInsert.regs, ∀ e2 ∈ regsAfterOneInsert.regs,
      e1.2.register = e2.2.register → e1.1 = e2.1) ∧
    (∀ g r s2, regsAfterOneInsert.insert g = .ok r none s2 →
      (∀ e ∈ regsAfterOneInsert.regs, e.2.register ≠ r) ∧
      (∀ e ∈ s2.regs, e.2.register = r → e.1 = g)) :=
  registers_eviction_free_invariant regsAfterOneInsert
    (@ReachEvictionFree.insertStep Registers.new (GuestRegister.cpu 1) 0
      regsAfterOneInsert ReachEvictionFree.base (by decide))

/-- Sequence of inserts of guest slots `cpu n` for `n` in the list. -/
def insertManyCpu : Registers → List Nat → Registers
  | s, [] => s
  | s, n :: ns =>
    match s.insert (GuestRegister.cpu n) with
    | .ok _ _ s2 => insertManyCpu s2 ns
    | _ => insertManyCpu s ns

/-- Allocator state after inserting `cpu 0 … cpu 11` into a fresh state:
all 12 allocatable registers are taken and the free set is empty. -/
def c1Pre : Registers := insertManyCpu Registers.new (List.range 12)

/-- C1 counterexample: from a fresh state, 12 inserts empty the free set;
the 13th insert evicts `cpu 0` and returns host register 0 (rax), yet
`cpu 0` is still bound to register 0 in the map at the moment `insert`
returns — the returned register is the binding of another guest slot,
and the map binds one host register to two distinct slots. -/
theorem registers_insert_eviction_counterexample :
    c1Pre.free_regs = [] ∧
    c1Pre.insert (GuestRegister.cpu 12)
      = .ok 0 (some (GuestRegister.cpu 0))
        { regs := c1Pre.regs ++ [(GuestRegister.cpu 12, ⟨0, 12⟩)]
          free_regs := []
          borrow_index := 13 } ∧
    (GuestRegister.cpu 0, ⟨0, 0⟩) ∈ c1Pre.regs ∧
    GuestRegister.cpu 0 ≠ GuestRegister.cpu 12 := by decide

/-- C8: whenever the free set is empty and the map is non-empty,
`insert` of an unbound slot evicts: it returns, as the dropped slot, a
bound guest slot whose borrow index is minimal among all bound slots,
together with that slot's host register, and binds the new slot to the
same register. -/
theorem registers_insert_evicts_lru (s : Registers) (g : GuestRegister)
    (hfree : s.free_regs = []) (hne : s.regs ≠ []) (hg : s.find g = none) :
    ∃ r g0 s2, s.insert g = .ok r (some g0) s2 ∧
      ∃ hb, (g0, hb) ∈ s.regs ∧ hb.register = r ∧
        (∀ e ∈ s.regs, hb.borrow_index ≤ e.2.borrow_index) ∧
        (g, ⟨r, s.borrow_index⟩) ∈ s2.regs := by
  have hsome := selectMin_isSome s.regs hne
  cases hm : selectMin s.regs with
  | none => rw [hm] at hsome; simp at hsome
  | some m =>
    obtain ⟨g0, hb⟩ := m
    have hins : s.insert g = .ok hb.register (some g0)
        { regs := s.regs ++ [(g, ⟨hb.register, s.borrow_index⟩)]
          free_regs := setRemove (setInsert [] hb.register) hb.register
          borrow_index := s.borrow_index + 1 } := by
      unfold Registers.insert
      rw [if_neg (by rw [hg]; simp), hfree, hm]
    refine ⟨hb.register, g0, _, hins, hb, selectMin_mem hm, rfl,
      selectMin_le hm, ?_⟩
    simp

/-- Concrete allocator state with an empty free set and two bound slots,
for exercising `registers_insert_evicts_lru`. -/
def c8State : Registers :=
  { regs := [(GuestRegister.cpu 4, ⟨3, 9⟩), (GuestRegister.cpu 7, ⟨8, 2⟩)]
    free_regs := []
    borrow_index := 10 }

theorem registers_insert_evicts_lru_witness :
    ∃ r g0 s2, c8State.insert GuestRegister.pc = .ok r (some g0) s2 ∧
      ∃ hb, (g0, hb) ∈ c8State.regs ∧ hb.register = r ∧
        (∀ e ∈ c8State.regs, hb.borrow_index ≤ e.2.borrow_index) ∧
        (GuestRegister.pc, ⟨r, c8State.borrow_index⟩) ∈ s2.regs :=
  registers_insert_evicts_lru c8State GuestRegister.pc
    (by decide) (by decide) (by decide)

end W64

namespace W64

/-! ## Compiler lowerings (`src/wicked64-core/src/jit/compiler.rs`) -/

/-- Statuses of `compile_instruction` (`AssembleStatus` in compiler.rs). -/
inductive AsmStatus where
  | cont
  | invalidateCache
  | branch
deriving DecidableEq, Repr

/-- Guest-visible interruption value (`Interruption` in interruption.rs,
`repr(C, u8)`: `None` = 0, `PrepareJump` = 1). -/
inductive InterruptionM where
  | noInterruption
  | prepareJump (addr : Nat)
deriving DecidableEq, Repr

/-- First byte of the `repr(C, u8)` encoding of `Interruption` — the
value the emitted code stores into the interruption slot. -/
def InterruptionM.discriminant : InterruptionM → Nat
  | .noInterruption => 0
  | .prepareJump _ => 1

/-- mov into a 64-bit host register (values wrap at 2^64). -/
def set64 (f : HostReg → Nat) (r : HostReg) (v : Nat) : HostReg → Nat :=
  fun x => if x = r then v % 2 ^ 64 else f x

/-- Write through a 32-bit register alias (`r14d`, `r15d`, …): x86-64
zero-extends the 32-bit result into the full 64-bit register. -/
def set32 (f : HostReg → Nat) (r : HostReg) (v : Nat) : HostReg → Nat :=
  fun x => if x = r then v % 2 ^ 32 else f x

/-- Data flow of the host code emitted for `JAL target` (compiler.rs,
JAL arm), with `pcReg` and `r31Reg` the host registers allocated for the
guest pc and guest r31.  In source order:
`mov r14, guest_pc; mov r15d, target; add guest_pc, 8; mov r31, guest_pc;
shl r15d, 2; and r14d, 0xf000_0000; or r14d, r15d;` then the
`get_host_jump_addr` call (which preserves the callee-saved r14/r15 and
the already-synced guest registers) and `mov r15, r14`. -/
def jalRegs (pcReg r31Reg : HostReg) (f : HostReg → Nat) (t : Nat) :
    HostReg → Nat :=
  let f1 := set64 f 14 (f pcReg)
  let f2 := set32 f1 15 t
  let f3 := set64 f2 pcReg (f2 pcReg + 8)
  let f4 := set64 f3 r31Reg (f3 pcReg)
  let f5 := set32 f4 15 (f4 15 <<< 2)
  let f6 := set32 f5 14 ((f5 14 % 2 ^ 32) &&& 0xf0000000)
  let f7 := set32 f6 14 (f6 14 ||| f6 15)
  set64 f7 15 (f7 14)

/-- Interruption written by the JAL tail:
`emit_interruption(Interruption::PrepareJump(0), Some(r15))` stores
discriminant 1 and, as the 8-byte payload, the value of r15. -/
def jalInterruption (pcReg r31Reg : HostReg) (f : HostReg → Nat)
    (t : Nat) : InterruptionM :=
  .prepareJump (jalRegs pcReg r31Reg f t 15)

/-- Final value of guest r31's host register (synced to the state struct
by `sync_all_registers` inside the tail). -/
def jalR31 (pcReg r31Reg : HostReg) (f : HostReg → Nat) (t : Nat) : Nat :=
  jalRegs pcReg r31Reg f t r31Reg

/-- The JAL arm of `compile_instruction` returns
`AssembleStatus::Branch`, ending the basic block. -/
def jalStatus : AsmStatus := .branch

/-- C2 (amended): the JAL lowering sets guest r31 to `pc + 8`, writes a
`PrepareJump` interruption whose payload is
`((pc mod 2^32) &&& 0xF000_0000) ||| (target <<< 2)` — the upper 32 bits
of the pc are zeroed by the 32-bit host arithmetic, not preserved — and
ends the block with `Branch`.  (The claimed 64-bit mask
`0xFFFF_FFFF_F000_0000` is refuted by
`jal_upper_pc_bits_counterexample`.) -/
theorem jal_lowering_effect (p t : Nat) (f : HostReg → Nat)
    (pcReg r31Reg : HostReg)
    (hpc14 : pcReg ≠ 14) (hpc15 : pcReg ≠ 15)
    (h3114 : r31Reg ≠ 14) (h3115 : r31Reg ≠ 15) (h31pc : r31Reg ≠ pcReg)
    (hp : f pcReg = p) (hp64 : p < 2 ^ 64) (ht : t < 2 ^ 26) :
    jalR31 pcReg r31Reg f t = (p + 8) % 2 ^ 64 ∧
    jalInterruption pcReg r31Reg f t =
      .prepareJump (((p % 2 ^ 32) &&& 0xf0000000) ||| (t <<< 2)) ∧
    jalStatus = .branch ∧
    (jalInterruption pcReg r31Reg f t).discriminant = 1 := by
  have hmask : (p % 2 ^ 32) &&& 0xf0000000 < 2 ^ 32 :=
    lt_of_le_of_lt Nat.and_le_right (by norm_num)
  have hshift : t <<< 2 < 2 ^ 32 := by
    rw [Nat.shiftLeft_eq]
    omega
  have hor : ((p % 2 ^ 32) &&& 0xf0000000) ||| (t <<< 2) < 2 ^ 32 :=
    Nat.or_lt_two_pow hmask hshift
  have ht32 : t < 2 ^ 32 := lt_trans ht (by norm_num)
  refine ⟨?_, ?_, rfl, rfl⟩
  · simp only [jalR31, jalRegs, set64, set32]
    simp [hpc14, hpc15, h3114, h3115, h31pc, Ne.symm hpc14, Ne.symm hpc15,
      Ne.symm h3114, Ne.symm h3115, Ne.symm h31pc, hp,
      Nat.mod_eq_of_lt hp64]
  · simp only [jalInterruption, jalRegs, set64, set32]
    simp [-Nat.reducePow, hpc14, hpc15, h3114, h3115, h31pc, Ne.symm hpc14,
      Ne.symm hpc15, Ne.symm h3114, Ne.symm h3115, Ne.symm h31pc, hp,
      Nat.mod_eq_of_lt hp64, Nat.mod_eq_of_lt ht32,
      Nat.mod_eq_of_lt hshift, Nat.mod_eq_of_lt hmask,
      Nat.mod_eq_of_lt hor,
      Nat.mod_eq_of_lt (lt_trans hor (by norm_num : (2:Nat) ^ 32 < 2 ^ 64)),
      Nat.mod_mod_of_dvd]

end W64

namespace W64

/-- Register file holding the value `2^32` in the guest-pc host
register; input for the C2 counterexample. -/
def jalCounterexampleRegs : HostReg → Nat :=
  fun r => if r = 0 then 2 ^ 32 else 0

/-- C2 counterexample: with guest pc `p = 2^32` and target `t = 0`, the
claimed new pc `(p &&& 0xFFFF_FFFF_F000_0000) ||| (t <<< 2)` equals
`2^32`, but the emitted 32-bit arithmetic produces payload `0`: the
upper 32 bits of the pc are zeroed, not preserved. -/
theorem jal_upper_pc_bits_counterexample :
    jalInterruption 0 1 jalCounterexampleRegs 0 = .prepareJump 0 ∧
    ((2 ^ 32 : Nat) &&& 0xfffffffff0000000) ||| (0 <<< 2) = 2 ^ 32 ∧
    (0 : Nat) ≠ 2 ^ 32 := by decide

/-- Register file for the C2 witness: the guest-pc host register (rax)
holds 0x8000_1000. -/
def jalWitnessRegs : HostReg → Nat :=
  fun r => if r = 0 then 0x80001000 else 0

theorem jal_lowering_effect_witness :
    jalR31 0 1 jalWitnessRegs 0x4000 = (0x80001000 + 8) % 2 ^ 64 ∧
    jalInterruption 0 1 jalWitnessRegs 0x4000 =
      .prepareJump (((0x80001000 % 2 ^ 32) &&& 0xf0000000) |||
        (0x4000 <<< 2)) ∧
    jalStatus = .branch ∧
    (jalInterruption 0 1 jalWitnessRegs 0x4000).discriminant = 1 :=
  jal_lowering_effect 0x80001000 0x4000 jalWitnessRegs 0 1
    (by decide) (by decide) (by decide) (by decide) (by decide)
    (by decide) (by decide) (by decide)

/-! ## SW lowering and the compile loop -/

/-- Guest instructions relevant to the compiler; every decoded
instruction not lowered by `compile_instruction` is `other` (its arm is
`todo!()`). -/
inductive Instr where
  | LUI (rt imm : Nat)
  | ORI (rs rt imm : Nat)
  | SW (rs rt imm : Nat)
  | JAL (target : Nat)
  | other
deriving DecidableEq, Repr

/-- `Instruction::cycles` from src/wicked64-core/src/cpu/instruction.rs:
`match self { _ => 5 }` — every instruction costs 5 p-clocks. -/
def Instr.cycles (_ : Instr) : Nat := 5

/-- Status returned by `compile_instruction` for each lowered opcode;
`none` models the `todo!()` panic arm for everything else. -/
def compileStatus : Instr → Option AsmStatus
  | .LUI _ _ => some .cont
  | .ORI _ _ _ => some .cont
  | .SW _ _ _ => some .invalidateCache
  | .JAL _ => some .branch
  | .other => none

/-- Data flow of the address computation emitted for `SW rt, imm(rs)`
(compiler.rs, SW arm): `mov r14, offset as u16 as u64; add r14, rs`.
The 16-bit immediate is zero-extended (`as u16 as u64`), not
sign-extended. -/
def swRegs (rsReg : HostReg) (f : HostReg → Nat) (imm : Nat) :
    HostReg → Nat :=
  set64 (set64 f 14 (imm % 2 ^ 16)) 14
    ((set64 f 14 (imm % 2 ^ 16)) 14 + (set64 f 14 (imm % 2 ^ 16)) rsReg)

/-- Virtual address handed to `bridge::mmu_store` by the SW lowering
(the final value of r14). -/
def swVaddr (rsReg : HostReg) (f : HostReg → Nat) (imm : Nat) : Nat :=
  swRegs rsReg f imm 14

/-- Low 32 bits of rt's host register, as received by the `u32` value
parameter of `mmu_store_dword`. -/
def swStoreValue (rtReg : HostReg) (f : HostReg → Nat) : Nat :=
  f rtReg % 2 ^ 32

/-- The SW arm of `compile_instruction` returns
`AssembleStatus::InvalidateCache`. -/
def swStatus : AsmStatus := .invalidateCache

/-- Store address according to the specification sentence for SW:
`rs + sign_extend(imm)`, the 16-bit immediate sign-extended to 64 bits,
with 64-bit wrap-around. -/
def swSpecVaddr (rsVal imm : Nat) : Nat :=
  (rsVal + (if imm % 2 ^ 16 < 2 ^ 15 then imm % 2 ^ 16
            else 2 ^ 64 - (2 ^ 16 - imm % 2 ^ 16))) % 2 ^ 64

end W64

namespace W64

/-- Reasons the `compile_block` loop stops. `fuelOut` is an artefact of
the structural-fuel encoding and is proved unreachable for the fuel used
by `compileBlockModel`. -/
inductive BlockStop where
  | budgetExhausted
  | fetchError
  | loweringTodo
  | branch
  | invalidate
  | fuelOut
deriving DecidableEq, Repr

/-- Result of the `compile_block` loop: number of fetch attempts, total
p-clocks issued, the stop reason, and the pc value written back to the
guest state when the block ends with `InvalidateCache`. -/
structure BlockResult where
  fetched : Nat
  totalCycles : Nat
  stop : BlockStop
  pcWriteback : Option Nat
deriving DecidableEq, Repr

/-- The `while total_cycles < cycles` loop of `Compiler::compile_block`
(compiler.rs lines 153–194) over an abstract instruction stream
`program` (the decoder; `none` is a fetch error).  Each iteration
fetches, advances the pc by 4, adds `Instruction::cycles()` and
dispatches on the status of `compile_instruction`; on `InvalidateCache`
it records the write-back of `pc = fetch address + 4`. -/
def compileGo (program : Nat → Option Instr) (budget : Nat) :
    Nat → Nat → Nat → Nat → BlockResult
  | fuel, pc, total, fetched =>
    if total < budget then
      match fuel with
      | 0 => ⟨fetched, total, .fuelOut, none⟩
      | fuel2 + 1 =>
        match program pc with
        | none => ⟨fetched + 1, total, .fetchError, none⟩
        | some inst =>
          match compileStatus inst with
          | none => ⟨fetched + 1, total + inst.cycles, .loweringTodo, none⟩
          | some .cont =>
            compileGo program budget fuel2 (pc + 4) (total + inst.cycles)
              (fetched + 1)
          | some .invalidateCache =>
            ⟨fetched + 1, total + inst.cycles, .invalidate, some (pc + 4)⟩
          | some .branch =>
            ⟨fetched + 1, total + inst.cycles, .branch, none⟩
    else ⟨fetched, total, .budgetExhausted, none⟩

/-- Entry point mirroring `Compiler::compile_block` started at `pc` with
the given cycle budget; the fuel `budget + 1` is never exhausted. -/
def compileBlockModel (program : Nat → Option Instr) (budget pc : Nat) :
    BlockResult :=
  compileGo program budget (budget + 1) pc 0 0

theorem compileGo_fetched_le (program : Nat → Option Instr) (budget : Nat) :
    ∀ fuel pc k, 5 * k < budget + 5 →
      (compileGo program budget fuel pc (5 * k) k).fetched ≤
        (budget + 4) / 5 := by
  have hdiv : ∀ k, 5 * k < budget + 5 → k ≤ (budget + 4) / 5 := by
    intro k hk
    rw [Nat.le_div_iff_mul_le (by norm_num : 0 < 5)]
    omega
  intro fuel
  induction fuel with
  | zero =>
    intro pc k hk
    simp only [compileGo]
    split
    · exact hdiv k hk
    · exact hdiv k hk
  | succ fuel2 ih =>
    intro pc k hk
    simp only [compileGo]
    by_cases hb : 5 * k < budget
    · rw [if_pos hb]
      split
      · exact hdiv (k + 1) (by omega)
      · split
        · exact hdiv (k + 1) (by omega)
        · exact ih _ (k + 1) (by omega)
        · exact hdiv (k + 1) (by omega)
        · exact hdiv (k + 1) (by omega)
    · rw [if_neg hb]
      exact hdiv k hk

theorem compileGo_no_fuelOut (program : Nat → Option Instr) (budget : Nat) :
    ∀ fuel pc total k, budget + 5 ≤ 5 * fuel + total →
      (compileGo program budget fuel pc total k).stop ≠ .fuelOut := by
  intro fuel
  induction fuel with
  | zero =>
    intro pc total k hinv
    simp only [compileGo]
    rw [if_neg (by omega : ¬ total < budget)]
    simp
  | succ fuel2 ih =>
    intro pc total k hinv
    simp only [compileGo]
    by_cases hb : total < budget
    · rw [if_pos hb]
      split
      · simp
      · split
        · simp
        · apply ih
          simp only [Instr.cycles]
          omega
        · simp
        · simp
    · rw [if_neg hb]
      simp

/-- C9: the per-block compile loop terminates for every budget: every
decoded instruction reports a fixed cycle cost of 5, the loop never runs
out of fuel (it always exits through its own guard or an early status),
it fetches at most `⌈budget/5⌉ = (budget+4)/5` instructions, and for the
engine's budget of 1024 at most 205. -/
theorem compile_block_budget_bound (program : Nat → Option Instr)
    (pc budget : Nat) :
    (∀ inst : Instr, inst.cycles = 5) ∧
    (compileBlockModel program budget pc).stop ≠ .fuelOut ∧
    (compileBlockModel program budget pc).fetched ≤ (budget + 4) / 5 ∧
    (compileBlockModel program 1024 pc).fetched ≤ 205 := by
  refine ⟨fun _ => rfl, ?_, ?_, ?_⟩
  · exact compileGo_no_fuelOut program budget (budget + 1) pc 0 0 (by omega)
  · have h := compileGo_fetched_le program budget (budget + 1) pc 0
      (by omega)
    simpa [compileBlockModel] using h
  · have h := compileGo_fetched_le program 1024 1025 pc 0 (by omega)
    simpa [compileBlockModel] using h

/-- Register file for the C3 input: the rs host register (rax) holds
0x10000 and the rt host register (rcx) holds 0xdeadbeef12345678. -/
def swBugRegs : HostReg → Nat :=
  fun r => if r = 0 then 0x10000 else if r = 1 then 0xdeadbeef12345678 else 0

/-- C3: divergence of the SW lowering from the specification at
`rs = 0x10000`, `imm = 0x8000` (the encoding of `SW rt, -0x8000(rs)`
under MIPS sign-extension).  The emitted code zero-extends the
immediate and stores to `0x18000`, while the spec's sign-extended
address is `0x8000`; the store value is the low 32 bits of rt, the
lowering always ends the block with `InvalidateCache`, and the loop then
writes back `pc = (address of the SW) + 4`. -/
theorem sw_offset_extension_bug :
    swVaddr 0 swBugRegs 0x8000 = 0x18000 ∧
    swSpecVaddr 0x10000 0x8000 = 0x8000 ∧
    (0x18000 : Nat) ≠ 0x8000 ∧
    swStoreValue 1 swBugRegs = 0x12345678 ∧
    swStatus = AsmStatus.invalidateCache ∧
    (compileBlockModel
        (fun pc => if pc = 0x100 then some (.SW 3 2 0x8000) else none)
        1024 0x100).pcWriteback = some 0x104 ∧
    (compileBlockModel
        (fun pc => if pc = 0x100 then some (.SW 3 2 0x8000) else none)
        1024 0x100).stop = .invalidate := by decide

end W64

namespace W64

/-! ## Translation cache (`src/wicked64-core/src/jit/cache.rs`) -/

/-- A cache entry's block: covered guest range start/length and the host
code pointer (`CompiledBlock`). -/
structure CacheBlock where
  start : Nat
  len : Nat
  ptr : Nat
deriving DecidableEq, Repr

/-- The invalidation retain of `Cache::get_or_compile` (cache.rs lines
70–76): keep a block iff
`!(invalidated.0 <= start + len && invalidated.1 >= start)`. -/
def cacheInvalidate (blocks : List (Nat × CacheBlock)) (a b : Nat) :
    List (Nat × CacheBlock) :=
  blocks.filter fun e =>
    !(decide (a ≤ e.2.start + e.2.len) && decide (b ≥ e.2.start))

/-- HashMap fetch by key. -/
def cacheFetch (blocks : List (Nat × CacheBlock)) (k : Nat) :
    Option CacheBlock :=
  (assocFind blocks k).map (·.2)

/-- The inclusive intervals `[s, e]` and `[a, b]` share a point. -/
def intervalsIntersect (s e a b : Nat) : Prop :=
  ∃ x, s ≤ x ∧ x ≤ e ∧ a ≤ x ∧ x ≤ b

theorem intervalsIntersect_iff (s e a b : Nat) (hse : s ≤ e)
    (hab : a ≤ b) : intervalsIntersect s e a b ↔ (a ≤ e ∧ s ≤ b) := by
  constructor
  · rintro ⟨x, h1, h2, h3, h4⟩
    omega
  · rintro ⟨h1, h2⟩
    refine ⟨max a s, ?_, ?_, ?_, ?_⟩ <;> omega

/-- C5: invalidating `[a, b]` drops exactly the entries whose covered
inclusive byte range `[start, start+len]` intersects `[a, b]`, and every
surviving entry remains fetchable under its original key. -/
theorem cache_invalidate_exact (blocks : List (Nat × CacheBlock))
    (a b : Nat) (hab : a ≤ b)
    (hnd : (blocks.map Prod.fst).Nodup) :
    (∀ k blk, (k, blk) ∈ cacheInvalidate blocks a b ↔
      ((k, blk) ∈ blocks ∧
        ¬ intervalsIntersect blk.start (blk.start + blk.len) a b)) ∧
    (∀ k blk, (k, blk) ∈ cacheInvalidate blocks a b →
      cacheFetch (cacheInvalidate blocks a b) k = some blk) := by
  constructor
  · intro k blk
    rw [cacheInvalidate, List.mem_filter]
    have hint := intervalsIntersect_iff blk.start (blk.start + blk.len)
      a b (Nat.le_add_right _ _) hab
    constructor
    · rintro ⟨hm, hpred⟩
      refine ⟨hm, ?_⟩
      rw [hint]
      simp at hpred
      omega
    · rintro ⟨hm, hni⟩
      refine ⟨hm, ?_⟩
      rw [hint] at hni
      simp
      omega
  · intro k blk hm
    have hnd2 : ((cacheInvalidate blocks a b).map Prod.fst).Nodup :=
      List.Nodup.sublist
        (List.Sublist.map Prod.fst (List.filter_sublist blocks)) hnd
    unfold cacheFetch
    rw [assocFind_of_mem _ hnd2 hm]
    rfl

/-- Two cached blocks at 0x1000 and 0x2000 for exercising
`cache_invalidate_exact`. -/
def c5Blocks : List (Nat × CacheBlock) :=
  [(0x1000, ⟨0x1000, 8, 0x500⟩), (0x2000, ⟨0x2000, 16, 0x600⟩)]

theorem cache_invalidate_exact_witness :
    (∀ k blk, (k, blk) ∈ cacheInvalidate c5Blocks 0x1004 0x1008 ↔
      ((k, blk) ∈ c5Blocks ∧
        ¬ intervalsIntersect blk.start (blk.start + blk.len)
          0x1004 0x1008)) ∧
    (∀ k blk, (k, blk) ∈ cacheInvalidate c5Blocks 0x1004 0x1008 →
      cacheFetch (cacheInvalidate c5Blocks 0x1004 0x1008) k = some blk) :=
  cache_invalidate_exact c5Blocks 0x1004 0x1008 (by decide) (by decide)

/-! ## Jump table (`src/wicked64-core/src/jit/jump_table.rs`) -/

/-- `JumpTable`: physical address → optional resolved host pointer
(`HashMap<u64, Option<JumpEntry>>`, the entry's `target_block` as a raw
pointer value). -/
structure JumpTableM where
  table : List (Nat × Option Nat)
deriving DecidableEq, Repr

/-- Entry lookup: `none` = key absent, `some none` = unresolved entry,
`some (some p)` = resolved to pointer `p`. -/
def JumpTableM.lookup (t : JumpTableM) (addr : Nat) : Option (Option Nat) :=
  (assocFind t.table addr).map (·.2)

/-- `JumpTable::get`:
`self.table.entry(phys_jump_addr).or_default().as_ref()` — on a miss an
unresolved (`None`) entry is inserted and `None` is returned. -/
def JumpTableM.get (t : JumpTableM) (addr : Nat) :
    Option Nat × JumpTableM :=
  match t.lookup addr with
  | some entry => (entry, t)
  | none => (none, ⟨t.table ++ [(addr, none)]⟩)

/-- `JumpTable::resolve_with_block`:
`self.table.get_mut(&phys_addr).map(|e| e.get_or_insert(JumpEntry {
target_block: block.ptr() }))` — never creates an entry, and never
overwrites an already-resolved one. -/
def JumpTableM.resolve_with_block (t : JumpTableM) (addr ptr : Nat) :
    Option Nat × JumpTableM :=
  match t.lookup addr with
  | none => (none, t)
  | some none =>
    (some ptr,
      ⟨t.table.map (fun e => if e.1 = addr then (addr, some ptr) else e)⟩)
  | some (some p) => (some p, t)

theorem assocFind_append_single {α β : Type} [DecidableEq α]
    {l : List (α × β)} {k : α} (h : assocFind l k = none) (v : β) :
    assocFind (l ++ [(k, v)]) k = some (k, v) := by
  unfold assocFind at *
  rw [List.find?_append, h]
  simp

/-- C10: `get` on an absent address inserts an unresolved entry and
returns `None`; `resolve_with_block` on an address never passed to `get`
returns `None` and leaves the table unchanged; on an already-resolved
entry it returns the existing pointer and leaves the table unchanged
rather than overwriting it. -/
theorem jump_table_get_resolve_contract (t : JumpTableM)
    (a1 a2 ptr p : Nat)
    (h1 : t.lookup a1 = none) (h2 : t.lookup a2 = some (some p)) :
    (t.get a1).1 = none ∧
    (t.get a1).2.lookup a1 = some none ∧
    t.resolve_with_block a1 ptr = (none, t) ∧
    (t.resolve_with_block a2 ptr).1 = some p ∧
    (t.resolve_with_block a2 ptr).2 = t := by
  have ha : assocFind t.table a1 = none := by
    unfold JumpTableM.lookup at h1
    cases hf : assocFind t.table a1 with
    | none => rfl
    | some e => rw [hf] at h1; cases h1
  refine ⟨?_, ?_, ?_, ?_, ?_⟩
  · simp [JumpTableM.get, h1]
  · simp only [JumpTableM.get, h1]
    unfold JumpTableM.lookup
    rw [assocFind_append_single ha]
    rfl
  · simp [JumpTableM.resolve_with_block, h1]
  · simp [JumpTableM.resolve_with_block, h2]
  · simp [JumpTableM.resolve_with_block, h2]

/-- Table with a resolved entry at 7, for exercising
`jump_table_get_resolve_contract` at present address 7 and absent
address 9. -/
def c10Table : JumpTableM := ⟨[(7, some 42)]⟩

theorem jump_table_get_resolve_contract_witness :
    (c10Table.get 9).1 = none ∧
    (c10Table.get 9).2.lookup 9 = some none ∧
    c10Table.resolve_with_block 9 99 = (none, c10Table) ∧
    (c10Table.resolve_with_block 7 99).1 = some 42 ∧
    (c10Table.resolve_with_block 7 99).2 = c10Table :=
  jump_table_get_resolve_contract c10Table 9 7 99 42
    (by decide) (by decide)

end W64

namespace W64

/-! ## JIT engine invalidation (`src/wicked64-core/src/jit/mod.rs`) -/

/-- Engine-owned state relevant to invalidation: the cache map, the jump
table and the pending invalidation interval drained from the guest
state. -/
structure EngineState where
  cacheBlocks : List (Nat × CacheBlock)
  jumpTable : JumpTableM
  cache_invalidation : Option (Nat × Nat)
deriving DecidableEq, Repr

/-- Modelled from the spec: `Cache::get_or_insert_with` (spec §4.F) —
the cache type used by `JitEngine` in mod.rs declares this operation but
its body is not under src/; per the spec it returns the exact-start
entry if present and otherwise inserts the freshly built block at the
address. -/
def cacheGetOrInsert (blocks : List (Nat × CacheBlock)) (addr : Nat)
    (blk : CacheBlock) : CacheBlock × List (Nat × CacheBlock) :=
  match cacheFetch blocks addr with
  | some b => (b, blocks)
  | none => (blk, blocks ++ [(addr, blk)])

/-- `JitEngine::invalidate_cache` (mod.rs lines 66–71): drain
`state.cache_invalidation` and drop the overlapping cache entries
(overlap predicate from cache.rs; `invalidate_range` itself is not under
src/).  The source contains `// ! TODO: delete entries from jump table
too` — the jump table is left untouched. -/
def EngineState.invalidate_cache (s : EngineState) : EngineState :=
  match s.cache_invalidation with
  | none => s
  | some (a, b) =>
    { s with
      cache_invalidation := none
      cacheBlocks := cacheInvalidate s.cacheBlocks a b }

/-- Compiled block at guest physical address 0x1000 with host entry
pointer 0x5000; the C4 scenario's block. -/
def c4Block : CacheBlock := ⟨0x1000, 8, 0x5000⟩

/-- Engine state built by registering `c4Block` in the cache, querying
the jump table for 0x1000 (the miss inserts an unresolved entry),
resolving that entry with the block, and then receiving the invalidation
interval [0x1000, 0x1004] from a guest store. -/
def c4Engine : EngineState :=
  { cacheBlocks := (cacheGetOrInsert [] 0x1000 c4Block).2
    jumpTable :=
      (((JumpTableM.get ⟨[]⟩ 0x1000).2).resolve_with_block 0x1000
        c4Block.ptr).2
    cache_invalidation := some (0x1000, 0x1004) }

/-- C4 (code bug): the engine's invalidation step drops the cached block
whose range overlaps the drained interval, but leaves the jump-table
entry resolved to the dropped block's code pointer — the source itself
carries `// ! TODO: delete entries from jump table too`. -/
theorem jump_table_stale_after_invalidation :
    cacheFetch c4Engine.cacheBlocks 0x1000 = some c4Block ∧
    c4Engine.jumpTable.lookup 0x1000 = some (some c4Block.ptr) ∧
    c4Engine.invalidate_cache.cacheBlocks = [] ∧
    cacheFetch c4Engine.invalidate_cache.cacheBlocks 0x1000 = none ∧
    c4Engine.invalidate_cache.jumpTable.lookup 0x1000 =
      some (some c4Block.ptr) := by decide

/-! ## Memory-store bridge (`src/wicked64-core/src/jit/bridge.rs`) -/

/-- Guest state fields observable by `mmu_store_dword`: byte-addressed
guest physical memory, the invalidation slot, the interruption slot and
the resume address. -/
structure N64State where
  mem : Nat → Nat
  cache_invalidation : Option (Nat × Nat)
  interruption : InterruptionM
  resume_addr : Nat

/-- `Cpu::translate_virtual` (cpu/mod.rs lines 104–110): KSEG0 and KSEG1
are direct-mapped by subtracting the segment base; every other segment
panics (`none` here). -/
def translateVirtual (addr : Nat) : Option Nat :=
  if 0x80000000 ≤ addr ∧ addr ≤ 0x9FFFFFFF then some (addr - 0x80000000)
  else if 0xA0000000 ≤ addr ∧ addr ≤ 0xBFFFFFFF then
    some (addr - 0xA0000000)
  else none

/-- `byteorder::BigEndian::write_u32` into byte-addressed memory:
most-significant byte first. -/
def writeBE32 (mem : Nat → Nat) (paddr v : Nat) : Nat → Nat := fun i =>
  if i = paddr then v / 2 ^ 24 % 2 ^ 8
  else if i = paddr + 1 then v / 2 ^ 16 % 2 ^ 8
  else if i = paddr + 2 then v / 2 ^ 8 % 2 ^ 8
  else if i = paddr + 3 then v % 2 ^ 8
  else mem i

/-- `bridge::mmu_store::<u32>` as called by `mmu_store_dword` (bridge.rs
lines 28–50): translate the virtual address, set
`cache_invalidation = Some(paddr..=paddr + 4)` (`u32::SIZE = 4`), and
store the value big-endian.  `none` models the translation panic. -/
def mmu_store_dword (s : N64State) (vaddr v : Nat) : Option N64State :=
  (translateVirtual vaddr).map fun paddr =>
    { s with
      cache_invalidation := some (paddr, paddr + 4)
      mem := writeBE32 s.mem paddr v }

/-- C6: `mmu_store_dword` writes the 32-bit value big-endian at the
translated physical address, sets `cache_invalidation` to the inclusive
interval [paddr, paddr+4], touches no other memory byte, and leaves the
interruption and resume_addr fields unchanged. -/
theorem mmu_store_dword_effect (s : N64State) (vaddr v paddr : Nat)
    (ht : translateVirtual vaddr = some paddr) (hv : v < 2 ^ 32) :
    ∃ s2, mmu_store_dword s vaddr v = some s2 ∧
      s2.cache_invalidation = some (paddr, paddr + 4) ∧
      s2.mem paddr = v / 2 ^ 24 % 2 ^ 8 ∧
      s2.mem (paddr + 1) = v / 2 ^ 16 % 2 ^ 8 ∧
      s2.mem (paddr + 2) = v / 2 ^ 8 % 2 ^ 8 ∧
      s2.mem (paddr + 3) = v % 2 ^ 8 ∧
      (∀ i, i ∉ [paddr, paddr + 1, paddr + 2, paddr + 3] →
        s2.mem i = s.mem i) ∧
      s2.interruption = s.interruption ∧
      s2.resume_addr = s.resume_addr := by
  have hms : mmu_store_dword s vaddr v = some
      { s with
        cache_invalidation := some (paddr, paddr + 4)
        mem := writeBE32 s.mem paddr v } := by
    unfold mmu_store_dword
    rw [ht]
    rfl
  refine ⟨_, hms, rfl, ?_, ?_, ?_, ?_, ?_, rfl, rfl⟩
  · show writeBE32 s.mem paddr v paddr = _
    unfold writeBE32
    rw [if_pos rfl]
  · show writeBE32 s.mem paddr v (paddr + 1) = _
    unfold writeBE32
    rw [if_neg (by omega), if_pos rfl]
  · show writeBE32 s.mem paddr v (paddr + 2) = _
    unfold writeBE32
    rw [if_neg (by omega), if_neg (by omega), if_pos rfl]
  · show writeBE32 s.mem paddr v (paddr + 3) = _
    unfold writeBE32
    rw [if_neg (by omega), if_neg (by omega), if_neg (by omega),
      if_pos rfl]
  · intro i hi
    simp only [List.mem_cons, List.not_mem_nil, or_false, not_or] at hi
    obtain ⟨n1, n2, n3, n4⟩ := hi
    show writeBE32 s.mem paddr v i = s.mem i
    unfold writeBE32
    rw [if_neg n1, if_neg n2, if_neg n3, if_neg n4]

/-- Guest state with zeroed memory and empty slots; the C6 witness
input. -/
def c6State : N64State :=
  { mem := fun _ => 0
    cache_invalidation := none
    interruption := .noInterruption
    resume_addr := 0 }

theorem mmu_store_dword_effect_witness :
    ∃ s2, mmu_store_dword c6State 0x80002000 0xdeadbeef = some s2 ∧
      s2.cache_invalidation = some (0x2000, 0x2000 + 4) ∧
      s2.mem 0x2000 = 0xdeadbeef / 2 ^ 24 % 2 ^ 8 ∧
      s2.mem (0x2000 + 1) = 0xdeadbeef / 2 ^ 16 % 2 ^ 8 ∧
      s2.mem (0x2000 + 2) = 0xdeadbeef / 2 ^ 8 % 2 ^ 8 ∧
      s2.mem (0x2000 + 3) = 0xdeadbeef % 2 ^ 8 ∧
      (∀ i, i ∉ [0x2000, 0x2000 + 1, 0x2000 + 2, 0x2000 + 3] →
        s2.mem i = c6State.mem i) ∧
      s2.interruption = c6State.interruption ∧
      s2.resume_addr = c6State.resume_addr :=
  mmu_store_dword_effect c6State 0x80002000 0xdeadbeef 0x2000
    (by decide) (by decide)

end W64

namespace W64

/-! ## mov encoders
(`src/wicked64-codegen/macro/src/emitter.rs`, `emit_mov` Indirect arms,
and `src/wicked64-core/src/jit/codegen/emitter.rs`, `emit_mov`
IndirectDisplacement arm).  Registers are numbered Rax=0 … R15=15. -/

/-- Little-endian byte image of a 32-bit word. -/
def dwordLE (n : Nat) : List Nat :=
  [n % 2 ^ 8, n / 2 ^ 8 % 2 ^ 8, n / 2 ^ 16 % 2 ^ 8, n / 2 ^ 24 % 2 ^ 8]

/-- Cast of an `i32` value to `u32` (two's complement). -/
def u32OfInt (i : Int) : Nat := (i % 2 ^ 32).toNat

/-- Cast of an `i32` value to `i8 as u8` (low byte, two's complement). -/
def u8OfInt (i : Int) : Nat := (i % 2 ^ 8).toNat

/-- REX byte `(0b1001 << 3) | (u8::from(rreg >= R8) << 2) |
u8::from(breg >= R8)` shared by the emitters. -/
def rexRB (rreg breg : Nat) : Nat :=
  (0b1001 <<< 3) ||| ((if 8 ≤ rreg then 1 else 0) <<< 2) |||
    (if 8 ≤ breg then 1 else 0)

/-- Load arm `(Register dst, Indirect { reg: src, disp })` of the macro
emitter's `emit_mov`: the displacement is `-(disp)` when negated, the
mode is `u8::from(disp != 0 || s == Rbp) << u8::from(|disp| > 127)`, an
SIB byte 0x24 follows when `s == Rsp`, and a displacement byte or dword
is appended when the mode is nonzero. -/
def emitMovRegIndirect (dst src : Nat) (neg : Bool) (disp : Nat) :
    List Nat :=
  let s := src % 8
  let d := dst % 8
  let dispI : Int := if neg then -(disp : Int) else (disp : Int)
  let mode := (if dispI ≠ 0 ∨ s = 5 then 1 else 0) <<<
    (if 127 < dispI.natAbs then 1 else 0)
  let modrm := (mode <<< 6) ||| (d <<< 3) ||| s
  [rexRB dst src, 0x8b, modrm] ++ (if s = 4 then [0x24] else []) ++
    (if mode ≠ 0 then
      (if 127 < dispI.natAbs then dwordLE (u32OfInt dispI)
       else [u8OfInt dispI])
     else [])

/-- Store arm `(Indirect { reg: dst, disp }, Register src)` of the macro
emitter's `emit_mov`: the mode is `u8::from(disp != 0) << 1` (0 or 2,
never 1), the SIB check compares the full register with Rsp, and a
4-byte displacement is appended whenever the mode is nonzero. -/
def emitMovIndirectReg (dst src : Nat) (neg : Bool) (disp : Nat) :
    List Nat :=
  let s := src % 8
  let d := dst % 8
  let mode := (if disp ≠ 0 then 1 else 0) <<< 1
  let modrm := (mode <<< 6) ||| (s <<< 3) ||| d
  [rexRB src dst, 0x89, modrm] ++ (if dst = 4 then [0x24] else []) ++
    (if mode ≠ 0 then
      dwordLE (u32OfInt (if neg then -(disp : Int) else (disp : Int)))
     else [])

/-- `(Register dst, IndirectDisplacement (src, disp))` arm of the core
emitter's `emit_mov`: always mod `0b10` followed by a 4-byte
displacement, with an SIB byte when `src == Rsp`. -/
def emitMovRegIndirectDisp (dst src : Nat) (disp : Int) : List Nat :=
  let s := src % 8
  let d := dst % 8
  let modrm := (0b10 <<< 6) ||| (d <<< 3) ||| s
  [rexRB dst src, 0x8b, modrm] ++ (if src = 4 then [0x24] else []) ++
    dwordLE (u32OfInt disp)

/-- C7 counterexample: the store form `[rax + 1] ← rcx` has a
displacement that fits in a signed 8-bit integer, yet the encoder emits
mod bits `10` (third byte 0x88, `0x88 >>> 6 = 2`) followed by a 4-byte
displacement; the no-displacement store `[rbp] ← rcx` is encoded as mod
`00` with no disp8; and the core emitter's `IndirectDisplacement` form
`rax ← [rcx + 1]` also emits mod `10` plus a 4-byte displacement. -/
theorem mov_store_disp8_counterexample :
    emitMovIndirectReg 0 1 false 1 =
      [0x48, 0x89, 0x88, 0x01, 0x00, 0x00, 0x00] ∧
    (0x88 : Nat) >>> 6 = 2 ∧
    (emitMovIndirectReg 0 1 false 1).length = 7 ∧
    emitMovIndirectReg 5 1 false 0 = [0x48, 0x89, 0x0d] ∧
    emitMovRegIndirectDisp 0 1 1 =
      [0x48, 0x8b, 0x81, 0x01, 0x00, 0x00, 0x00] := by decide

end W64

namespace W64

/-- C7 (amended): in the macro emitter's load form the displacement
width follows the signed-8-bit size check (mod `01` + disp8 when
`|disp| ≤ 127`, mod `10` + disp32 otherwise) and an rbp-like base with
no displacement is encoded as mod `01` with a zero disp8; the store
form applies no size check — any nonzero displacement yields mod `10`
with a 4-byte displacement and a zero displacement yields mod `00` with
no displacement byte even for rbp-like bases; and the core emitter's
`IndirectDisplacement` form always emits mod `10` with a 4-byte
displacement.  (The original claim, asserting the size check and the
rbp special case for both forms, is refuted by
`mov_store_disp8_counterexample`.) -/
theorem mov_indirect_disp_encoding (dst src : Nat) (neg : Bool)
    (disp : Nat) (hdisp : disp ≤ 0x7fffffff) :
    ((disp ≠ 0 ∨ src % 8 = 5) → disp ≤ 127 →
      emitMovRegIndirect dst src neg disp =
        [rexRB dst src, 0x8b,
          (1 <<< 6) ||| ((dst % 8) <<< 3) ||| (src % 8)] ++
        (if src % 8 = 4 then [0x24] else []) ++
        [u8OfInt (if neg then -(disp : Int) else (disp : Int))]) ∧
    (127 < disp →
      emitMovRegIndirect dst src neg disp =
        [rexRB dst src, 0x8b,
          (2 <<< 6) ||| ((dst % 8) <<< 3) ||| (src % 8)] ++
        (if src % 8 = 4 then [0x24] else []) ++
        dwordLE (u32OfInt (if neg then -(disp : Int) else (disp : Int)))) ∧
    (disp = 0 ∧ src % 8 ≠ 5 →
      emitMovRegIndirect dst src neg disp =
        [rexRB dst src, 0x8b, (0 <<< 6) ||| ((dst % 8) <<< 3) ||| (src % 8)]
        ++ (if src % 8 = 4 then [0x24] else [])) ∧
    (disp ≠ 0 →
      emitMovIndirectReg dst src neg disp =
        [rexRB src dst, 0x89,
          (2 <<< 6) ||| ((src % 8) <<< 3) ||| (dst % 8)] ++
        (if dst = 4 then [0x24] else []) ++
        dwordLE (u32OfInt (if neg then -(disp : Int) else (disp : Int)))) ∧
    (disp = 0 →
      emitMovIndirectReg dst src neg disp =
        [rexRB src dst, 0x89, (0 <<< 6) ||| ((src % 8) <<< 3) ||| (dst % 8)]
        ++ (if dst = 4 then [0x24] else [])) ∧
    (emitMovRegIndirectDisp dst src
        (if neg then -(disp : Int) else (disp : Int)) =
      [rexRB dst src, 0x8b,
        (2 <<< 6) ||| ((dst % 8) <<< 3) ||| (src % 8)] ++
      (if src = 4 then [0x24] else []) ++
      dwordLE (u32OfInt (if neg then -(disp : Int) else (disp : Int)))) := by
  have habs : (if neg then -(disp : Int) else (disp : Int)).natAbs = disp := by
    cases neg <;> simp
  have hzero : ((if neg then -(disp : Int) else (disp : Int)) ≠ 0) ↔
      disp ≠ 0 := by
    cases neg <;> simp
  refine ⟨?_, ?_, ?_, ?_, ?_, ?_⟩
  · intro hcond hle
    have hc2 : (if neg then -(disp : Int) else (disp : Int)) ≠ 0 ∨
        src % 8 = 5 := by
      rcases hcond with h | h
      · exact Or.inl (hzero.mpr h)
      · exact Or.inr h
    have hb2 : ¬ 127 <
        (if neg then -(disp : Int) else (disp : Int)).natAbs := by
      rw [habs]; omega
    simp only [emitMovRegIndirect]
    rw [if_pos hc2, if_neg hb2, if_neg hb2]
    norm_num
  · intro hgt
    have hc2 : (if neg then -(disp : Int) else (disp : Int)) ≠ 0 ∨
        src % 8 = 5 := Or.inl (hzero.mpr (by omega))
    have hb2 : 127 <
        (if neg then -(disp : Int) else (disp : Int)).natAbs := by
      rw [habs]; omega
    simp only [emitMovRegIndirect]
    rw [if_pos hc2, if_pos hb2, if_pos hb2]
    norm_num [Nat.shiftLeft_eq]
  · rintro ⟨hd0, hs5⟩
    have hc2 : ¬ ((if neg then -(disp : Int) else (disp : Int)) ≠ 0 ∨
        src % 8 = 5) := by
      rw [not_or, hzero]
      exact ⟨by omega, hs5⟩
    simp only [emitMovRegIndirect]
    rw [if_neg hc2]
    norm_num
  · intro hd0
    simp only [emitMovIndirectReg]
    rw [if_pos hd0]
    norm_num [Nat.shiftLeft_eq]
  · intro hd0
    subst hd0
    simp [emitMovIndirectReg]
  · simp [emitMovRegIndirectDisp, Nat.shiftLeft_eq]

/-- Witness input for `mov_indirect_disp_encoding`: `rcx` against an
rbp-like base (`rbp` itself) with no displacement. -/
theorem mov_indirect_disp_encoding_witness :
    ((0 ≠ 0 ∨ 5 % 8 = 5) → 0 ≤ 127 →
      emitMovRegIndirect 1 5 false 0 =
        [rexRB 1 5, 0x8b, (1 <<< 6) ||| ((1 % 8) <<< 3) ||| (5 % 8)] ++
        (if 5 % 8 = 4 then [0x24] else []) ++
        [u8OfInt (if false then -(0 : Int) else (0 : Int))]) ∧
    (127 < 0 →
      emitMovRegIndirect 1 5 false 0 =
        [rexRB 1 5, 0x8b, (2 <<< 6) ||| ((1 % 8) <<< 3) ||| (5 % 8)] ++
        (if 5 % 8 = 4 then [0x24] else []) ++
        dwordLE (u32OfInt (if false then -(0 : Int) else (0 : Int)))) ∧
    (0 = 0 ∧ 5 % 8 ≠ 5 →
      emitMovRegIndirect 1 5 false 0 =
        [rexRB 1 5, 0x8b, (0 <<< 6) ||| ((1 % 8) <<< 3) ||| (5 % 8)] ++
        (if 5 % 8 = 4 then [0x24] else [])) ∧
    (0 ≠ 0 →
      emitMovIndirectReg 1 5 false 0 =
        [rexRB 5 1, 0x89, (2 <<< 6) ||| ((5 % 8) <<< 3) ||| (1 % 8)] ++
        (if 1 = 4 then [0x24] else []) ++
        dwordLE (u32OfInt (if false then -(0 : Int) else (0 : Int)))) ∧
    (0 = 0 →
      emitMovIndirectReg 1 5 false 0 =
        [rexRB 5 1, 0x89, (0 <<< 6) ||| ((5 % 8) <<< 3) ||| (1 % 8)] ++
        (if 1 = 4 then [0x24] else [])) ∧
    (emitMovRegIndirectDisp 1 5
        (if false then -(0 : Int) else (0 : Int)) =
      [rexRB 1 5, 0x8b, (2 <<< 6) ||| ((1 % 8) <<< 3) ||| (5 % 8)] ++
      (if 5 = 4 then [0x24] else []) ++
      dwordLE (u32OfInt (if false then -(0 : Int) else (0 : Int)))) :=
  mov_indirect_disp_encoding 1 5 false 0 (by decide)

end W64
